import Mathlib

/-!
Verification of the gormpool connection pool (pool.go) against its
natural-language specification.

The Go source is shallowly embedded as follows.

- `*gorm.DB` handles are opaque to the pool; they are modelled by a `Nat`
  identifier.  A call `db.Close()` is recorded by consing the identifier onto
  a bookkeeping trace `closedDBs` carried in the pool state.
- Go `uint64` counters are modelled by `Nat`; the only subtractions performed
  by the code happen under guards that keep them above zero (the one place
  where the Go code can underflow, `conns.deleteByKey` on an empty set, is
  modelled as `none`, matching the runtime fault of
  `make([]string, cs.size-1)` at `size = 0`).
- `time.Time` / `time.Duration` values are modelled by `Nat`; the current
  time is passed in as an explicit `now` argument.
- Go maps (`map[string]*Conn`) are modelled by association lists with the
  operations of a Go map: insertion replaces an existing binding, deletion
  removes it.  Go maps hold at most one binding per key; the association
  lists built here do as well because insertion replaces.
- Nondeterministic inputs of an operation (whether the context is cancelled,
  the result of `connector.Open()`, the key produced by `uuid`/`KeyFunc`)
  are passed in as explicit oracle arguments.
- A Go execution step that faults (nil-pointer dereference, slice bounds) or
  that blocks forever on a channel is modelled as `none`: no completed step.
-/

namespace GormPool

/-- A pool connection, `Conn` in pool.go: the `*gorm.DB` handle (modelled as a
numeric identifier), the key, creation and update timestamps, and the usage
counter. -/
structure Conn where
  DB : Nat
  Key : String
  Created : Nat
  Updated : Nat
  UsageCounter : Nat
deriving DecidableEq

/-- Lookup in a Go map modelled as an association list: `m[k]` when present. -/
def lookupKey : List (String × Conn) → String → Option Conn
  | [], _ => none
  | (k1, c) :: rest, k => if k1 = k then some c else lookupKey rest k

/-- Insertion into a Go map: `m[k] = c` replaces an existing binding for `k`
or appends a new one. -/
def insertKey : List (String × Conn) → String → Conn → List (String × Conn)
  | [], k, c => [(k, c)]
  | (k1, c1) :: rest, k, c =>
    if k1 = k then (k, c) :: rest else (k1, c1) :: insertKey rest k c

/-- Deletion from a Go map: `delete(m, k)` removes the binding for `k` when
present and does nothing otherwise. -/
def eraseKey : List (String × Conn) → String → List (String × Conn)
  | [], _ => []
  | (k1, c1) :: rest, k =>
    if k1 = k then rest else (k1, c1) :: eraseKey rest k

/-- The keys bound by a modelled Go map. -/
def mapKeys (m : List (String × Conn)) : List String := m.map Prod.fst

/-- The ordered connection set, `conns` in pool.go: an ordered slice of keys,
a key-to-connection map, and a size counter. -/
structure Conns where
  keys : List String
  conns : List (String × Conn)
  size : Nat
deriving DecidableEq

/-- `newConns` in pool.go. -/
def newConns : Conns := ⟨[], [], 0⟩

/-- `conns.get` in pool.go: take the head-of-queue key, fetch and delete its
connection from the map, decrement size, increment the usage counter and
refresh the update timestamp of the returned connection.  In Go the slice
index `cs.keys[0]` faults on an empty slice and `conn.UsageCounter++` faults
when the map lookup returned nil; both cases are `none` here. -/
def Conns.get (cs : Conns) (now : Nat) : Option (Conn × Conns) :=
  match cs.keys with
  | [] => none
  | key :: rest =>
    match lookupKey cs.conns key with
    | none => none
    | some c =>
      some ({ c with UsageCounter := c.UsageCounter + 1, Updated := now },
            ⟨rest, eraseKey cs.conns key, cs.size - 1⟩)

/-- `conns.put` in pool.go: append the key, insert into the map, increment
size, refresh the update timestamp of the stored connection. -/
def Conns.put (cs : Conns) (conn : Conn) (now : Nat) : Conns :=
  ⟨cs.keys ++ [conn.Key],
   insertKey cs.conns conn.Key { conn with Updated := now },
   cs.size + 1⟩

/-- The empty string slice entries produced by `make([]string, n)` in Go. -/
def emptyKey : String := ""

/-- `conns.deleteByKey` in pool.go, verbatim: the rebuilt key slice is
pre-sized with `make([]string, cs.size-1)` (that many empty strings) and the
surviving keys are then appended after them; size is decremented and the map
binding deleted.  (The Go code also refreshes the `Updated` field of the map
entry being removed just before deleting it; since the entry is deleted, the
resulting set is unaffected.)  At `size = 0` the Go expression
`cs.size-1` underflows `uint64` and `make` faults: modelled as `none`. -/
def Conns.deleteByKey (cs : Conns) (key : String) : Option Conns :=
  if cs.size = 0 then none
  else
    some ⟨List.replicate (cs.size - 1) emptyKey
            ++ cs.keys.filter (fun k => ¬(k = key)),
          eraseKey cs.conns key,
          cs.size - 1⟩

/-- `conns.close` in pool.go: call `DB.Close()` on every connection held in
the map (returned as the list of closed handles), then delete every key of
the key slice from the map.  The key slice and the size counter are left
unchanged by the Go code. -/
def Conns.close (cs : Conns) : List Nat × Conns :=
  (cs.conns.map (fun e => e.2.DB),
   { cs with conns := cs.keys.foldl (fun m k => eraseKey m k) cs.conns })

/-- The SQL backend kinds, `godbpool.SQLType`.  The type itself lives outside
this repository; the spec's Backend Enumeration is the closed set of four
supported kinds, and `Options.validate` has a default branch, so the type
admits further, unrecognized values, modelled by `Unknown`. -/
inductive SQLType where
  | MySQL
  | PostgreSQL
  | SQLite3
  | SQLServer
  | Unknown (tag : Nat)
deriving DecidableEq

/-- The resolved connector, `sqls.Connector`: one concrete variant per
backend (`my.New`, `postgre.New`, `sqlite.New`, `mssql.New`).  The
constructors never fail; only their `Open` method can, which is modelled by
the open-result oracle arguments below. -/
inductive Connector where
  | my
  | postgre
  | sqlite
  | mssql
deriving DecidableEq

/-- The pool error values declared at the top of pool.go.  Opaque backend
errors propagated from a connector's `Open` are carried by `Backend`; the
payload is passed through unchanged. -/
inductive PoolError where
  | ErrGetFromClosedPool
  | ErrExceedingMaxWaitingDuration
  | ErrSQLType
  | ErrKeepLTCapacity
  | ErrCapacity
  | ErrEmptyArgs
  | Backend (e : Nat)
deriving DecidableEq

/-- Pool configuration, `Options` in pool.go.  `Args` is an opaque
`interface{}` the pool never inspects: modelled as an optional opaque
payload, `none` being Go `nil`.  `KeyFunc` is not carried in the state;
the key each connection receives (from `KeyFunc` or from the default uuid
generator) is supplied as an oracle argument to the operations that open
connections. -/
structure Options where
  sqlType : SQLType
  Args : Option Nat
  KeepConn : Nat
  Capacity : Nat
  MaxWaitDuration : Nat
  connector : Option Connector
deriving DecidableEq

/-- The connector resolution performed by the `switch o.Type` at the top of
`Options.validate`: each recognized kind gets its connector, the default
branch recognizes nothing. -/
def resolveConnector : SQLType → Option Connector
  | .MySQL => some .my
  | .PostgreSQL => some .postgre
  | .SQLite3 => some .sqlite
  | .SQLServer => some .mssql
  | .Unknown _ => none

/-- `Options.validate` in pool.go: resolve the connector (default branch of
the switch returns `ErrSQLType`), then reject nil `Args` with
`ErrEmptyArgs`, zero `Capacity` with `ErrCapacity`, and
`KeepConn > Capacity` with `ErrKeepLTCapacity`; otherwise succeed with the
connector recorded in the options. -/
def Options.validate (o : Options) : Except PoolError Options :=
  match resolveConnector o.sqlType with
  | none => .error .ErrSQLType
  | some c =>
    if o.Args = none then .error .ErrEmptyArgs
    else if o.Capacity = 0 then .error .ErrCapacity
    else if o.Capacity < o.KeepConn then .error .ErrKeepLTCapacity
    else .ok { o with connector := some c }

/-- The pool state, `Pool` in pool.go.  `ch` is the occupancy of the buffered
channel `make(chan struct{}, Capacity)`.  `closedDBs` is the bookkeeping
trace of `DB.Close()` calls (newest first); it has no Go counterpart and is
never read by the operations. -/
structure Pool where
  sqlType : SQLType
  Args : Option Nat
  connector : Option Connector
  keepConn : Nat
  capacity : Nat
  maxWaitDuration : Nat
  idleConn : Conns
  busyConn : Conns
  closed : Bool
  ch : Nat
  currentWaitCount : Nat
  totalWaitCount : Nat
  waitDuration : Nat
  droppedGetCount : Nat
  closedDBs : List Nat
deriving DecidableEq

/-- The pool literal built by `NewPool` before any connection is opened. -/
def initPool (o : Options) : Pool :=
  { sqlType := o.sqlType
    Args := o.Args
    connector := o.connector
    keepConn := o.KeepConn
    capacity := o.Capacity
    maxWaitDuration := o.MaxWaitDuration
    idleConn := newConns
    busyConn := newConns
    closed := false
    ch := 0
    currentWaitCount := 0
    totalWaitCount := 0
    waitDuration := 0
    droppedGetCount := 0
    closedDBs := [] }

/-- `Pool.initConn` in pool.go: run the connector's `Open` (result supplied
by the oracle `openRes`: a backend error or a fresh handle), build a `Conn`
with the supplied `key` and zero usage counter, send one unit on the
semaphore channel and put the connection into the idle set.  A send on a
full buffered channel blocks forever: modelled as `none`. -/
def Pool.initConn (p : Pool) (openRes : Except Nat Nat) (key : String)
    (now : Nat) : Option (Except PoolError Pool) :=
  match openRes with
  | .error e => some (.error (.Backend e))
  | .ok db =>
    if p.ch < p.capacity then
      some (.ok { p with
        ch := p.ch + 1,
        idleConn := p.idleConn.put ⟨db, key, now, now, 0⟩ now })
    else none

/-- The warm-up loop of `NewPool`: `keepConn` iterations of `initConn`, one
oracle pair (open result, key) per iteration, aborting on the first error. -/
def warmup : Pool → List (Except Nat Nat × String) → Nat →
    Option (Except PoolError Pool)
  | p, [], _ => some (.ok p)
  | p, (openRes, key) :: rest, now =>
    match p.initConn openRes key now with
    | none => none
    | some (.error e) => some (.error e)
    | some (.ok p1) => warmup p1 rest now

/-- `NewPool` in pool.go: validate the options; build the pool; if
`KeepConn = 0` run `checkArgs` (one throwaway open-then-close, result
`checkOpen`) and return without spawning the watcher goroutine; otherwise
open `KeepConn` connections via the warm-up loop, aborting on the first
error, and spawn the watcher goroutine.  The returned flag records whether
the watcher goroutine was spawned (it is not on the `KeepConn = 0` path,
which returns early). -/
def NewPool (opts : Options) (opens : List (Except Nat Nat × String))
    (checkOpen : Except Nat Nat) (now : Nat) :
    Option (Except PoolError (Pool × Bool)) :=
  match opts.validate with
  | .error e => some (.error e)
  | .ok o =>
    if o.KeepConn = 0 then
      match checkOpen with
      | .error e => some (.error (.Backend e))
      | .ok db => some (.ok ({ initPool o with closedDBs := [db] }, false))
    else
      match warmup (initPool o) opens now with
      | none => none
      | some (.error e) => some (.error e)
      | some (.ok p1) => some (.ok (p1, true))

/-- `Pool.get` (the unexported helper) in pool.go: take the head idle
connection and put it into the busy set. -/
def Pool.get (p : Pool) (now : Nat) : Option (Conn × Pool) :=
  match p.idleConn.get now with
  | none => none
  | some (c, idle1) =>
    some (c, { p with idleConn := idle1, busyConn := p.busyConn.put c now })

/-- The outcome of `Pool.Get`: a connection, an error, or a fall-through to
the waiting branch of the code (the `select` on the context, the semaphore
channel and the timer). -/
inductive GetOut where
  | ok (c : Conn)
  | err (e : PoolError)
  | wouldWait
deriving DecidableEq

/-- `Pool.Get` in pool.go, up to the point where a result is returned or the
waiting `select` is entered.  `ctxDone` tells whether the cancellation
context is already done when the initial `select` runs (a ready case wins
over `default`).  On the on-demand path a failed `initConn` returns the
backend error with the pool unchanged (the Go code also forgets to unlock
the mutex there, which only affects later operations).  Receiving from the
empty semaphore channel would block while holding the lock: `none`.
Entering the waiting branch increments the current and total wait counters
and returns `wouldWait`; its three completions are modelled separately by
`Pool.waitWake` and `Pool.waitTimeout` (the context-cancellation completion
unlocks an unlocked mutex in Go, a runtime fault, hence no step). -/
def Pool.Get (p : Pool) (ctxDone : Bool) (openRes : Except Nat Nat)
    (key : String) (now : Nat) : Option (GetOut × Pool) :=
  if ctxDone then
    some (.err .ErrGetFromClosedPool,
          { p with droppedGetCount := p.droppedGetCount + 1 })
  else if p.closed then
    some (.err .ErrGetFromClosedPool,
          { p with droppedGetCount := p.droppedGetCount + 1 })
  else if 0 < p.idleConn.size then
    match p.get now with
    | none => none
    | some (c, p1) =>
      if p1.ch = 0 then none
      else some (.ok c, { p1 with ch := p1.ch - 1 })
  else if p.busyConn.size < p.capacity then
    match p.initConn openRes key now with
    | none => none
    | some (.error e) => some (.err e, p)
    | some (.ok p1) =>
      match p1.get now with
      | none => none
      | some (c, p2) =>
        if p2.ch = 0 then none
        else some (.ok c, { p2 with ch := p2.ch - 1 })
  else
    some (.wouldWait,
          { p with currentWaitCount := p.currentWaitCount + 1,
                   totalWaitCount := p.totalWaitCount + 1 })

/-- The semaphore completion of the waiting branch of `Pool.Get`: a unit is
received from the semaphore channel, then the head idle connection is moved
to the busy set, the elapsed wait `d` is added to the cumulative wait
duration and the current-wait counter is decremented. -/
def Pool.waitWake (p : Pool) (d now : Nat) : Option (Conn × Pool) :=
  if p.ch = 0 then none
  else
    match p.get now with
    | none => none
    | some (c, p1) =>
      some (c, { p1 with
        ch := p1.ch - 1,
        waitDuration := p1.waitDuration + d,
        currentWaitCount := p1.currentWaitCount - 1 })

/-- The timer completion of the waiting branch of `Pool.Get`: the elapsed
wait `d` is added to the cumulative wait duration, the dropped-get counter
is incremented, the current-wait counter is decremented, and
`ErrExceedingMaxWaitingDuration` is returned. -/
def Pool.waitTimeout (p : Pool) (d : Nat) : Pool :=
  { p with
    waitDuration := p.waitDuration + d,
    droppedGetCount := p.droppedGetCount + 1,
    currentWaitCount := p.currentWaitCount - 1 }

/-- `Pool.Put` in pool.go: delete the connection from the busy set by its
key; if the idle size is below `keepConn` and the pool is not closed, put it
into the idle set and send one unit on the semaphore channel, otherwise call
`DB.Close()` on its handle (recorded in `closedDBs`) and drop it.  The
function returns no error to its caller.  `none` models the two runtime
faults: `deleteByKey` on an empty busy set, and a semaphore send that would
block on a full channel. -/
def Pool.Put (p : Pool) (conn : Conn) (now : Nat) : Option Pool :=
  match p.busyConn.deleteByKey conn.Key with
  | none => none
  | some busy1 =>
    if p.idleConn.size < p.keepConn ∧ p.closed = false then
      if p.ch < p.capacity then
        some { p with
          busyConn := busy1,
          idleConn := p.idleConn.put conn now,
          ch := p.ch + 1 }
      else none
    else
      some { p with busyConn := busy1, closedDBs := conn.DB :: p.closedDBs }

/-- `Pool.Close` in pool.go: set the closed flag and run `conns.close` on
the idle set, recording the closed handles. -/
def Pool.Close (p : Pool) : Pool :=
  let r := p.idleConn.close
  { p with closed := true, idleConn := r.2, closedDBs := r.1 ++ p.closedDBs }

/-- Snapshot of one connection set, `ConnsState` in pool.go. -/
structure ConnsState where
  Size : Nat
  Conns : List (String × Conn)
deriving DecidableEq

/-- Pool snapshot, `PoolState` in pool.go. -/
structure PoolState where
  IdleConnsState : ConnsState
  BusyConnsState : ConnsState
  Capacity : Nat
  Size : Nat
  Closed : Bool
  TotalWaitingDuration : Nat
  CurrentWaitCount : Nat
  TotalWaitCount : Nat
  DroppedGetCount : Nat
deriving DecidableEq

/-- `Pool.Status` in pool.go: read the fields under the lock into a
`PoolState` and return it; the pool state is returned unchanged. -/
def Pool.Status (p : Pool) : PoolState × Pool :=
  (⟨⟨p.idleConn.size, p.idleConn.conns⟩,
    ⟨p.busyConn.size, p.busyConn.conns⟩,
    p.capacity,
    p.busyConn.size + p.idleConn.size,
    p.closed,
    p.waitDuration,
    p.currentWaitCount,
    p.totalWaitCount,
    p.droppedGetCount⟩, p)

/-- The goroutine spawned at the end of `NewPool` (only on the
`KeepConn > 0` path): a `select` on `ctx.Done()` with a `default` case.  It
polls the context exactly once, at spawn time, and exits: it calls
`p.Close()` when the context is already done at that moment and does nothing
at all otherwise. -/
def watcher (ctxDoneAtSpawn : Bool) (p : Pool) : Pool :=
  if ctxDoneAtSpawn then p.Close else p

/-- One completed bookkeeping step of a pool in its lifetime: a `Get` (with
arbitrary oracle inputs), either completion of the waiting branch of a
pending `Get` (which requires a waiter to exist), a `Put` of some
connection, or a `Close`.  `Status` performs no state change. -/
inductive Step : Pool → Pool → Prop where
  | get (p : Pool) (ctxDone : Bool) (openRes : Except Nat Nat) (key : String)
      (now : Nat) (out : GetOut) (p1 : Pool) :
      p.Get ctxDone openRes key now = some (out, p1) → Step p p1
  | wake (p : Pool) (d now : Nat) (c : Conn) (p1 : Pool) :
      1 ≤ p.currentWaitCount → p.waitWake d now = some (c, p1) → Step p p1
  | timeout (p : Pool) (d : Nat) :
      1 ≤ p.currentWaitCount → Step p (p.waitTimeout d)
  | put (p : Pool) (conn : Conn) (now : Nat) (p1 : Pool) :
      p.Put conn now = some p1 → Step p p1
  | close (p : Pool) : Step p p.Close

/-- The pools reachable in some lifetime: a pool returned by a successful
`NewPool` (the oracle list has one entry per warm-up iteration), followed by
any sequence of completed steps. -/
inductive Reach : Pool → Prop where
  | init (opts : Options) (opens : List (Except Nat Nat × String))
      (checkOpen : Except Nat Nat) (now : Nat) (p : Pool) (w : Bool) :
      opens.length = opts.KeepConn →
      NewPool opts opens checkOpen now = some (.ok (p, w)) → Reach p
  | step (p p1 : Pool) : Reach p → Step p p1 → Reach p1

/-!
Reference-semantics mirror for `Pool.Status`.

In Go a `map[string]*Conn` value is a reference to a shared table.  The
value model above copies entries; it is adequate for every operation's
bookkeeping, but it cannot express what `Status` hands back: the assignment
`Conns: p.idleConn.conns` copies the map reference, not the entries.  The
following mirror keeps each map as an address into a table heap, exactly so
that the sharing between a returned snapshot and the live pool is visible.
-/

/-- A heap of Go map tables, addressed by `Nat`. -/
structure MapHeap where
  tables : List (Nat × List (String × Conn))
deriving DecidableEq

/-- Read the table at an address (a missing address reads as empty). -/
def readTable : List (Nat × List (String × Conn)) → Nat →
    List (String × Conn)
  | [], _ => []
  | (r1, t1) :: rest, r => if r1 = r then t1 else readTable rest r

/-- Write the table at an address, replacing it in place. -/
def writeTable : List (Nat × List (String × Conn)) → Nat →
    List (String × Conn) → List (Nat × List (String × Conn))
  | [], r, t => [(r, t)]
  | (r1, t1) :: rest, r, t =>
    if r1 = r then (r, t) :: rest else (r1, t1) :: writeTable rest r t

/-- A connection set whose map is a heap reference: `keys` and `size` live
in the struct as in Go, the map contents live in the heap at `ref`. -/
structure ConnsRef where
  keys : List String
  ref : Nat
  size : Nat
deriving DecidableEq

/-- The pool fields touched by `Status` and `Put`, with heap-referenced
connection sets. -/
structure PoolRef where
  keepConn : Nat
  capacity : Nat
  idleConn : ConnsRef
  busyConn : ConnsRef
  closed : Bool
  ch : Nat
  closedDBs : List Nat
deriving DecidableEq

/-- One connection-set snapshot as `Status` actually builds it in Go: the
size is copied, the map field copies the reference. -/
structure ConnsStateRef where
  Size : Nat
  connsRef : Nat
deriving DecidableEq

/-- The two set snapshots of `Pool.Status` under reference semantics:
`Conns: p.idleConn.conns` and `Conns: p.busyConn.conns` copy the map
references into the returned state. -/
def statusRef (p : PoolRef) : ConnsStateRef × ConnsStateRef :=
  (⟨p.idleConn.size, p.idleConn.ref⟩, ⟨p.busyConn.size, p.busyConn.ref⟩)

/-- `Pool.Put` under reference semantics: the same steps as `Pool.Put`, with
the map mutations performed in the heap at the sets' addresses. -/
def putRef (h : MapHeap) (p : PoolRef) (conn : Conn) (now : Nat) :
    Option (MapHeap × PoolRef) :=
  if p.busyConn.size = 0 then none
  else
    let h1 : MapHeap :=
      ⟨writeTable h.tables p.busyConn.ref
        (eraseKey (readTable h.tables p.busyConn.ref) conn.Key)⟩
    let busy1 : ConnsRef :=
      ⟨List.replicate (p.busyConn.size - 1) emptyKey
         ++ p.busyConn.keys.filter (fun k => ¬(k = conn.Key)),
       p.busyConn.ref, p.busyConn.size - 1⟩
    if p.idleConn.size < p.keepConn ∧ p.closed = false then
      if p.ch < p.capacity then
        some (⟨writeTable h1.tables p.idleConn.ref
                (insertKey (readTable h1.tables p.idleConn.ref) conn.Key
                  { conn with Updated := now })⟩,
              { p with
                busyConn := busy1,
                idleConn := ⟨p.idleConn.keys ++ [conn.Key], p.idleConn.ref,
                             p.idleConn.size + 1⟩,
                ch := p.ch + 1 })
      else none
    else
      some (h1, { p with busyConn := busy1,
                         closedDBs := conn.DB :: p.closedDBs })

/-!
Lemmas about the modelled Go map operations.
-/

theorem mem_insertKey (m : List (String × Conn)) (k : String) (c : Conn) :
    ∀ e ∈ insertKey m k c, e = (k, c) ∨ e ∈ m := by
  induction m with
  | nil => intro e he; simp [insertKey] at he; simp [he]
  | cons hd tl ih =>
    intro e he
    by_cases hk : hd.1 = k
    · obtain ⟨k1, c1⟩ := hd
      simp only [insertKey] at he
      rw [if_pos hk] at he
      rcases List.mem_cons.mp he with h | h
      · exact Or.inl h
      · exact Or.inr (List.mem_cons_of_mem _ h)
    · obtain ⟨k1, c1⟩ := hd
      simp only [insertKey] at he
      rw [if_neg hk] at he
      rcases List.mem_cons.mp he with h | h
      · exact Or.inr (by simp [h])
      · rcases ih e h with h1 | h1
        · exact Or.inl h1
        · exact Or.inr (List.mem_cons_of_mem _ h1)

theorem mem_mapKeys_insertKey (m : List (String × Conn)) (k : String)
    (c : Conn) : ∀ x ∈ mapKeys (insertKey m k c), x ∈ mapKeys m ∨ x = k := by
  intro x hx
  simp only [mapKeys, List.mem_map] at hx
  obtain ⟨e, he, hex⟩ := hx
  rcases mem_insertKey m k c e he with h | h
  · right; rw [← hex, h]
  · left; simp only [mapKeys, List.mem_map]; exact ⟨e, h, hex⟩

theorem nodup_insertKey (m : List (String × Conn)) (k : String) (c : Conn)
    (h : (mapKeys m).Nodup) : (mapKeys (insertKey m k c)).Nodup := by
  induction m with
  | nil => simp [insertKey, mapKeys]
  | cons hd tl ih =>
    obtain ⟨k1, c1⟩ := hd
    simp only [mapKeys, List.map_cons, List.nodup_cons] at h
    by_cases hk : k1 = k
    · simp only [insertKey, if_pos hk, mapKeys, List.map_cons,
        List.nodup_cons]
      exact ⟨by rw [← hk]; exact h.1, h.2⟩
    · simp only [insertKey, if_neg hk, mapKeys, List.map_cons,
        List.nodup_cons]
      refine ⟨?_, ih h.2⟩
      intro hmem
      rcases mem_mapKeys_insertKey tl k c k1 hmem with h1 | h1
      · exact h.1 h1
      · exact hk h1

theorem eraseKey_sublist (m : List (String × Conn)) (k : String) :
    (eraseKey m k).Sublist m := by
  induction m with
  | nil => simp [eraseKey]
  | cons hd tl ih =>
    obtain ⟨k1, c1⟩ := hd
    simp only [eraseKey]
    by_cases hk : k1 = k
    · rw [if_pos hk]; exact List.sublist_cons_self _ _
    · rw [if_neg hk]; exact List.Sublist.cons₂ _ ih

theorem mem_eraseKey (m : List (String × Conn)) (k : String) :
    ∀ e ∈ eraseKey m k, e ∈ m :=
  fun _ he => (eraseKey_sublist m k).subset he

theorem nodup_eraseKey (m : List (String × Conn)) (k : String)
    (h : (mapKeys m).Nodup) : (mapKeys (eraseKey m k)).Nodup :=
  List.Nodup.sublist (List.Sublist.map _ (eraseKey_sublist m k)) h

theorem mem_eraseKey_ne (m : List (String × Conn)) (k : String)
    (h : (mapKeys m).Nodup) : ∀ e ∈ eraseKey m k, ¬(e.1 = k) := by
  induction m with
  | nil => intro e he; simp [eraseKey] at he
  | cons hd tl ih =>
    obtain ⟨k1, c1⟩ := hd
    simp only [mapKeys, List.map_cons, List.nodup_cons] at h
    intro e he
    simp only [eraseKey] at he
    by_cases hk : k1 = k
    · rw [if_pos hk] at he
      intro hek
      apply h.1
      rw [hk, ← hek]
      simp only [mapKeys, List.mem_map]
      exact ⟨e, he, rfl⟩
    · rw [if_neg hk] at he
      rcases List.mem_cons.mp he with h1 | h1
      · rw [h1]; exact hk
      · exact ih h.2 e h1

theorem eq_nil_of_keys_nil (m : List (String × Conn))
    (h : ∀ e ∈ m, e.1 ∈ ([] : List String)) : m = [] := by
  cases m with
  | nil => rfl
  | cons hd tl => exact absurd (h hd (List.mem_cons_self _ _)) (by simp)

theorem foldl_eraseKey_closes (ks : List String) :
    ∀ m : List (String × Conn), (∀ e ∈ m, e.1 ∈ ks) →
      (mapKeys m).Nodup → ks.foldl (fun m k => eraseKey m k) m = [] := by
  induction ks with
  | nil => intro m hsub _; simp [eq_nil_of_keys_nil m hsub]
  | cons k ks ih =>
    intro m hsub hnd
    simp only [List.foldl_cons]
    apply ih
    · intro e he
      have hm := mem_eraseKey m k e he
      have hne := mem_eraseKey_ne m k hnd e he
      rcases List.mem_cons.mp (hsub e hm) with h1 | h1
      · exact absurd h1 hne
      · exact h1
    · exact nodup_eraseKey m k hnd

/-!
The lifetime invariant of a pool and its preservation.
-/

/-- The state invariant maintained by every pool over its lifetime: the idle
and busy size fields sum to at most the capacity; the kept-connection bound
does not exceed the capacity; while the pool is open the idle size field
counts the idle key slice, every idle map binding's key occurs in that
slice, and the idle map binds each key at most once; once the pool is
closed its idle map is empty. -/
structure PoolInv (p : Pool) : Prop where
  total_le : p.idleConn.size + p.busyConn.size ≤ p.capacity
  keep_le : p.keepConn ≤ p.capacity
  idle_size : p.closed = false → p.idleConn.size = p.idleConn.keys.length
  idle_sub : ∀ e ∈ p.idleConn.conns, e.1 ∈ p.idleConn.keys
  idle_nodup : (mapKeys p.idleConn.conns).Nodup
  idle_closed : p.closed = true → p.idleConn.conns = []

theorem pget_closed_none (p : Pool) (now : Nat)
    (h : p.idleConn.conns = []) : p.get now = none := by
  unfold Pool.get Conns.get
  cases hk : p.idleConn.keys with
  | nil => rfl
  | cons key rest => rw [h]; rfl

theorem conns_get_spec (cs : Conns) (now : Nat) (c : Conn) (cs1 : Conns)
    (h : cs.get now = some (c, cs1)) :
    ∃ key rest c0, cs.keys = key :: rest ∧
      lookupKey cs.conns key = some c0 ∧
      c = { c0 with UsageCounter := c0.UsageCounter + 1, Updated := now } ∧
      cs1 = ⟨rest, eraseKey cs.conns key, cs.size - 1⟩ := by
  unfold Conns.get at h
  split at h
  · exact absurd h (by simp)
  next key rest hk =>
    split at h
    · exact absurd h (by simp)
    next c0 hl =>
      simp only [Option.some.injEq, Prod.mk.injEq] at h
      exact ⟨key, rest, c0, hk, hl, h.1.symm, h.2.symm⟩

theorem pool_get_spec (p : Pool) (now : Nat) (c : Conn) (p1 : Pool)
    (h : p.get now = some (c, p1)) :
    ∃ idle1, p.idleConn.get now = some (c, idle1) ∧
      p1 = { p with idleConn := idle1, busyConn := p.busyConn.put c now } := by
  unfold Pool.get at h
  split at h
  · exact absurd h (by simp)
  next c1 idle1 hg =>
    simp only [Option.some.injEq, Prod.mk.injEq] at h
    obtain ⟨hc, hp⟩ := h
    subst hc
    exact ⟨idle1, hg, hp.symm⟩

theorem pget_spec (p : Pool) (now : Nat) (c : Conn) (p1 : Pool)
    (hclosed : p.closed = false) (hInv : PoolInv p)
    (h : p.get now = some (c, p1)) :
    PoolInv p1 ∧
    p1.idleConn.size + p1.busyConn.size = p.idleConn.size + p.busyConn.size ∧
    1 ≤ p.idleConn.size ∧
    p1.closed = false ∧ p1.capacity = p.capacity ∧
    p1.keepConn = p.keepConn ∧ p1.ch = p.ch := by
  obtain ⟨idle1, hg, hp1⟩ := pool_get_spec p now c p1 h
  obtain ⟨key, rest, c0, hk, hl, hc, hidle1⟩ := conns_get_spec _ _ _ _ hg
  have hsz : p.idleConn.size = rest.length + 1 := by
    have h2 := hInv.idle_size hclosed
    rw [hk] at h2
    simpa using h2
  subst hidle1
  subst hp1
  refine ⟨⟨?_, hInv.keep_le, ?_, ?_, ?_, ?_⟩, ?_, by omega, hclosed, rfl,
    rfl, rfl⟩
  · simp only [Conns.put]
    have := hInv.total_le
    omega
  · intro _
    simp only []
    omega
  · intro e he
    have hmem := mem_eraseKey p.idleConn.conns key e he
    have hne := mem_eraseKey_ne p.idleConn.conns key hInv.idle_nodup e he
    have hin := hInv.idle_sub e hmem
    rw [hk] at hin
    rcases List.mem_cons.mp hin with h1 | h1
    · exact absurd h1 hne
    · exact h1
  · exact nodup_eraseKey _ _ hInv.idle_nodup
  · intro hcl
    rw [hclosed] at hcl
    exact absurd hcl (by simp)
  · simp only [Conns.put]
    omega

theorem deleteByKey_spec (cs : Conns) (key : String) (cs1 : Conns)
    (h : cs.deleteByKey key = some cs1) :
    1 ≤ cs.size ∧ cs1.size = cs.size - 1 ∧
    cs1.conns = eraseKey cs.conns key ∧
    cs1.keys = List.replicate (cs.size - 1) emptyKey
      ++ cs.keys.filter (fun k => ¬(k = key)) := by
  unfold Conns.deleteByKey at h
  split at h
  · exact absurd h (by simp)
  next hz =>
    simp only [Option.some.injEq] at h
    subst h
    exact ⟨by omega, rfl, rfl, rfl⟩

theorem initConn_error (p : Pool) (e : Nat) (key : String) (now : Nat) :
    p.initConn (.error e) key now = some (.error (.Backend e)) := rfl

theorem initConn_spec (p : Pool) (db : Nat) (key : String) (now : Nat)
    (p1 : Pool) (h : p.initConn (.ok db) key now = some (.ok p1)) :
    p.ch < p.capacity ∧
    p1 = { p with
        ch := p.ch + 1,
        idleConn := p.idleConn.put ⟨db, key, now, now, 0⟩ now } := by
  simp only [Pool.initConn] at h
  split at h
  next hch =>
    simp only [Option.some.injEq, Except.ok.injEq] at h
    exact ⟨hch, h.symm⟩
  next hch => exact absurd h (by simp)

theorem put_idle_inv (p : Pool) (conn : Conn) (now : Nat) (hInv : PoolInv p)
    (hclosed : p.closed = false)
    (htot : p.idleConn.size + 1 + p.busyConn.size ≤ p.capacity) :
    PoolInv { p with ch := p.ch + 1, idleConn := p.idleConn.put conn now } := by
  refine ⟨?_, hInv.keep_le, ?_, ?_, ?_, ?_⟩
  · simp only [Conns.put]
    omega
  · intro _
    simp only [Conns.put, List.length_append, List.length_singleton]
    have := hInv.idle_size hclosed
    omega
  · intro e he
    simp only [Conns.put] at he ⊢
    rcases mem_insertKey _ _ _ e he with h1 | h1
    · rw [h1]; simp
    · exact List.mem_append_left _ (hInv.idle_sub e h1)
  · exact nodup_insertKey _ _ _ hInv.idle_nodup
  · intro hcl
    rw [hclosed] at hcl
    exact absurd hcl (by simp)

theorem put_inv (p : Pool) (conn : Conn) (now : Nat) (p1 : Pool)
    (hInv : PoolInv p) (h : p.Put conn now = some p1) : PoolInv p1 := by
  unfold Pool.Put at h
  split at h
  · exact absurd h (by simp)
  next busy1 hd =>
    obtain ⟨hbsz, hb1sz, hb1c, hb1k⟩ := deleteByKey_spec _ _ _ hd
    split at h
    next hkeep =>
      split at h
      next hch =>
        simp only [Option.some.injEq] at h
        subst h
        refine ⟨?_, hInv.keep_le, ?_, ?_, ?_, ?_⟩
        · simp only [Conns.put]
          have := hInv.total_le
          omega
        · intro _
          simp only [Conns.put, List.length_append, List.length_singleton]
          have := hInv.idle_size hkeep.2
          omega
        · intro e he
          simp only [Conns.put] at he ⊢
          rcases mem_insertKey _ _ _ e he with h1 | h1
          · rw [h1]; simp
          · exact List.mem_append_left _ (hInv.idle_sub e h1)
        · exact nodup_insertKey _ _ _ hInv.idle_nodup
        · intro hcl
          rw [hkeep.2] at hcl
          exact absurd hcl (by simp)
      next hch => exact absurd h (by simp)
    next hkeep =>
      simp only [Option.some.injEq] at h
      subst h
      refine ⟨?_, hInv.keep_le, hInv.idle_size, hInv.idle_sub,
        hInv.idle_nodup, hInv.idle_closed⟩
      show p.idleConn.size + busy1.size ≤ p.capacity
      have := hInv.total_le
      omega

theorem close_conns_nil (p : Pool) (hInv : PoolInv p) :
    (p.Close).idleConn.conns = [] := by
  unfold Pool.Close Conns.close
  by_cases hcl : p.closed = true
  · have hnil := hInv.idle_closed hcl
    simp only [hnil]
    exact foldl_eraseKey_closes p.idleConn.keys [] (by simp)
      (by simp [mapKeys])
  · exact foldl_eraseKey_closes p.idleConn.keys p.idleConn.conns
      hInv.idle_sub hInv.idle_nodup

theorem close_inv (p : Pool) (hInv : PoolInv p) : PoolInv p.Close := by
  have hconns := close_conns_nil p hInv
  refine ⟨hInv.total_le, hInv.keep_le, ?_, ?_, ?_, fun _ => hconns⟩
  · intro hfalse
    exact absurd hfalse (by simp [Pool.Close])
  · intro e he
    rw [hconns] at he
    exact absurd he (by simp)
  · rw [hconns]
    simp [mapKeys]

theorem get_inv (p : Pool) (ctxDone : Bool) (openRes : Except Nat Nat)
    (key : String) (now : Nat) (out : GetOut) (p1 : Pool)
    (hInv : PoolInv p) (h : p.Get ctxDone openRes key now = some (out, p1)) :
    PoolInv p1 := by
  unfold Pool.Get at h
  split at h
  · simp only [Option.some.injEq, Prod.mk.injEq] at h
    exact h.2 ▸ ⟨hInv.total_le, hInv.keep_le, hInv.idle_size, hInv.idle_sub,
      hInv.idle_nodup, hInv.idle_closed⟩
  next hctx =>
    split at h
    · simp only [Option.some.injEq, Prod.mk.injEq] at h
      exact h.2 ▸ ⟨hInv.total_le, hInv.keep_le, hInv.idle_size,
        hInv.idle_sub, hInv.idle_nodup, hInv.idle_closed⟩
    next hcl =>
      have hclosed : p.closed = false := by simpa using hcl
      split at h
      next hidle =>
        split at h
        · exact absurd h (by simp)
        next c2 p2 hg =>
          split at h
          · exact absurd h (by simp)
          next hch =>
            simp only [Option.some.injEq, Prod.mk.injEq] at h
            obtain ⟨hInv2, -, -, -, -, -, -⟩ :=
              pget_spec p now c2 p2 hclosed hInv hg
            exact h.2 ▸ ⟨hInv2.total_le, hInv2.keep_le, hInv2.idle_size,
              hInv2.idle_sub, hInv2.idle_nodup, hInv2.idle_closed⟩
      next hidle =>
        split at h
        next hbusy =>
          split at h
          · exact absurd h (by simp)
          · next e heq =>
              simp only [Option.some.injEq, Prod.mk.injEq] at h
              exact h.2 ▸ hInv
          next p2 heq =>
            have hp2 : PoolInv p2 ∧ p2.closed = false := by
              cases openRes with
              | error e0 =>
                rw [initConn_error] at heq
                exact absurd heq (by simp)
              | ok db =>
                obtain ⟨hch, hsh⟩ := initConn_spec p db key now p2 heq
                constructor
                · rw [hsh]
                  exact put_idle_inv p ⟨db, key, now, now, 0⟩ now hInv hclosed
                    (by omega)
                · rw [hsh]
                  exact hclosed
            split at h
            · exact absurd h (by simp)
            next c2 p3 hg =>
              split at h
              · exact absurd h (by simp)
              next hch2 =>
                simp only [Option.some.injEq, Prod.mk.injEq] at h
                obtain ⟨hInv3, -, -, -, -, -, -⟩ :=
                  pget_spec p2 now c2 p3 hp2.2 hp2.1 hg
                exact h.2 ▸ ⟨hInv3.total_le, hInv3.keep_le, hInv3.idle_size,
                  hInv3.idle_sub, hInv3.idle_nodup, hInv3.idle_closed⟩
        next hbusy =>
          simp only [Option.some.injEq, Prod.mk.injEq] at h
          exact h.2 ▸ ⟨hInv.total_le, hInv.keep_le, hInv.idle_size,
            hInv.idle_sub, hInv.idle_nodup, hInv.idle_closed⟩

theorem wake_inv (p : Pool) (d now : Nat) (c : Conn) (p1 : Pool)
    (hInv : PoolInv p) (h : p.waitWake d now = some (c, p1)) :
    PoolInv p1 := by
  unfold Pool.waitWake at h
  split at h
  · exact absurd h (by simp)
  next hch =>
    split at h
    · exact absurd h (by simp)
    next c0 p2 hg =>
      by_cases hcl : p.closed = true
      · rw [pget_closed_none p now (hInv.idle_closed hcl)] at hg
        exact absurd hg (by simp)
      · have hclosed : p.closed = false := by simpa using hcl
        obtain ⟨hInv2, -, -, -, -, -, -⟩ :=
          pget_spec p now c0 p2 hclosed hInv hg
        simp only [Option.some.injEq, Prod.mk.injEq] at h
        exact h.2 ▸ ⟨hInv2.total_le, hInv2.keep_le, hInv2.idle_size,
          hInv2.idle_sub, hInv2.idle_nodup, hInv2.idle_closed⟩

theorem timeout_inv (p : Pool) (d : Nat) (hInv : PoolInv p) :
    PoolInv (p.waitTimeout d) :=
  ⟨hInv.total_le, hInv.keep_le, hInv.idle_size, hInv.idle_sub,
    hInv.idle_nodup, hInv.idle_closed⟩

theorem step_inv (p p1 : Pool) (hInv : PoolInv p) (hs : Step p p1) :
    PoolInv p1 := by
  cases hs with
  | get ctxDone openRes key now out p1 h =>
    exact get_inv _ ctxDone openRes key now out p1 hInv h
  | wake d now c p1 _ h => exact wake_inv _ d now c p1 hInv h
  | timeout d _ => exact timeout_inv _ d hInv
  | put conn now p1 h => exact put_inv _ conn now p1 hInv h
  | close => exact close_inv p hInv

theorem validate_ok (o o1 : Options) (h : o.validate = .ok o1) :
    o1.KeepConn ≤ o1.Capacity ∧ o1.KeepConn = o.KeepConn ∧
    o1.Capacity = o.Capacity := by
  unfold Options.validate at h
  split at h
  · exact absurd h (by simp)
  next c hr =>
    split at h
    · exact absurd h (by simp)
    next h1 =>
      split at h
      · exact absurd h (by simp)
      next h2 =>
        split at h
        · exact absurd h (by simp)
        next h3 =>
          simp only [Except.ok.injEq] at h
          subst h
          refine ⟨?_, rfl, rfl⟩
          show o.KeepConn ≤ o.Capacity
          omega

theorem warmup_inv (opens : List (Except Nat Nat × String)) :
    ∀ (p : Pool) (now : Nat) (p1 : Pool),
      warmup p opens now = some (.ok p1) →
      p.closed = false →
      p.busyConn.size = 0 →
      p.idleConn.size = p.idleConn.keys.length →
      (∀ e ∈ p.idleConn.conns, e.1 ∈ p.idleConn.keys) →
      (mapKeys p.idleConn.conns).Nodup →
      p.idleConn.size + opens.length ≤ p.capacity →
      p.keepConn ≤ p.capacity →
      PoolInv p1 := by
  induction opens with
  | nil =>
    intro p now p1 h hcl hbusy hsz hsub hnd htot hkeep
    simp only [warmup, Option.some.injEq, Except.ok.injEq] at h
    subst h
    refine ⟨by omega, hkeep, fun _ => hsz, hsub, hnd, ?_⟩
    intro hc
    rw [hcl] at hc
    exact absurd hc (by simp)
  | cons hd tl ih =>
    intro p now p1 h hcl hbusy hsz hsub hnd htot hkeep
    obtain ⟨openRes, key⟩ := hd
    simp only [warmup] at h
    split at h
    · exact absurd h (by simp)
    · exact absurd h (by simp)
    next p2 heq =>
      cases openRes with
      | error e0 =>
        rw [initConn_error] at heq
        exact absurd heq (by simp)
      | ok db =>
        obtain ⟨hch, hsh⟩ := initConn_spec p db key now p2 heq
        subst hsh
        refine ih _ now p1 h hcl hbusy ?_ ?_ ?_ ?_ hkeep
        · simp only [Conns.put, List.length_append, List.length_singleton]
          omega
        · intro e he
          simp only [Conns.put] at he ⊢
          rcases mem_insertKey _ _ _ e he with h1 | h1
          · rw [h1]; simp
          · exact List.mem_append_left _ (hsub e h1)
        · exact nodup_insertKey _ _ _ hnd
        · simp only [Conns.put]
          simp only [List.length_cons] at htot
          omega

theorem newPool_inv (opts : Options) (opens : List (Except Nat Nat × String))
    (checkOpen : Except Nat Nat) (now : Nat) (p : Pool) (w : Bool)
    (hlen : opens.length = opts.KeepConn)
    (h : NewPool opts opens checkOpen now = some (.ok (p, w))) : PoolInv p := by
  unfold NewPool at h
  split at h
  · exact absurd h (by simp)
  next o1 hv =>
    obtain ⟨hkeep, hkc, hcc⟩ := validate_ok opts o1 hv
    split at h
    next hk =>
      split at h
      · exact absurd h (by simp)
      next db =>
        simp only [Option.some.injEq, Except.ok.injEq, Prod.mk.injEq] at h
        obtain ⟨hp, -⟩ := h
        subst hp
        refine ⟨by simp [initPool, newConns], ?_,
          fun _ => by simp [initPool, newConns], ?_, ?_, ?_⟩
        · simpa [initPool] using hkeep
        · intro e he
          simp [initPool, newConns] at he
        · simp [initPool, newConns, mapKeys]
        · intro hc
          simp [initPool] at hc
    next hk =>
      split at h
      · exact absurd h (by simp)
      · exact absurd h (by simp)
      next p2 hw =>
        simp only [Option.some.injEq, Except.ok.injEq, Prod.mk.injEq] at h
        obtain ⟨hp, -⟩ := h
        subst hp
        have hol : opens.length = o1.KeepConn := by rw [hlen, hkc]
        refine warmup_inv opens (initPool o1) now p2 hw rfl rfl rfl ?_ ?_ ?_ ?_
        · intro e he
          simp [initPool, newConns] at he
        · simp [initPool, newConns, mapKeys]
        · simp only [initPool, newConns]
          omega
        · simpa [initPool] using hkeep

theorem reach_inv (p : Pool) (h : Reach p) : PoolInv p := by
  induction h with
  | init opts opens checkOpen now p w hlen hnew =>
    exact newPool_inv opts opens checkOpen now p w hlen hnew
  | step p p1 _ hs ih => exact step_inv p p1 ih hs

/-!
Evaluation lemmas: the result of each operation on states satisfying the
guards of a given branch of the Go code.
-/

theorem conns_get_eval (cs : Conns) (now : Nat) (key0 : String)
    (rest : List String) (c : Conn) (hk : cs.keys = key0 :: rest)
    (hl : lookupKey cs.conns key0 = some c) :
    cs.get now = some
      ({ c with UsageCounter := c.UsageCounter + 1, Updated := now },
       ⟨rest, eraseKey cs.conns key0, cs.size - 1⟩) := by
  unfold Conns.get
  rw [hk]
  simp [hl]

theorem pool_get_eval (p : Pool) (now : Nat) (c1 : Conn) (idle1 : Conns)
    (hcg : p.idleConn.get now = some (c1, idle1)) :
    p.get now = some
      (c1, { p with idleConn := idle1, busyConn := p.busyConn.put c1 now }) := by
  unfold Pool.get
  rw [hcg]

theorem get_idle_eval (p : Pool) (openRes : Except Nat Nat) (key : String)
    (now : Nat) (c1 : Conn) (p2 : Pool) (hclosed : p.closed = false)
    (hpos : 0 < p.idleConn.size) (hch : ¬p2.ch = 0)
    (hpg : p.get now = some (c1, p2)) :
    p.Get false openRes key now = some (.ok c1, { p2 with ch := p2.ch - 1 }) := by
  unfold Pool.Get
  rw [hpg]
  simp [hclosed, hpos, hch]

theorem get_on_closed (q : Pool) (hq : q.closed = true) (ctxDone : Bool)
    (openRes : Except Nat Nat) (key : String) (now : Nat) :
    q.Get ctxDone openRes key now = some (.err .ErrGetFromClosedPool,
      { q with droppedGetCount := q.droppedGetCount + 1 }) := by
  unfold Pool.Get
  cases ctxDone with
  | false => simp [hq]
  | true => simp

theorem deleteByKey_eval (cs : Conns) (key : String) (hz : ¬cs.size = 0) :
    cs.deleteByKey key = some
      ⟨List.replicate (cs.size - 1) emptyKey
         ++ cs.keys.filter (fun k => ¬(k = key)),
       eraseKey cs.conns key, cs.size - 1⟩ := by
  unfold Conns.deleteByKey
  simp [hz]

theorem put_keep_eval (p : Pool) (conn : Conn) (now : Nat) (busy1 : Conns)
    (hd : p.busyConn.deleteByKey conn.Key = some busy1)
    (hkeep : p.idleConn.size < p.keepConn) (hclosed : p.closed = false)
    (hch : p.ch < p.capacity) :
    p.Put conn now = some { p with
      busyConn := busy1,
      idleConn := p.idleConn.put conn now,
      ch := p.ch + 1 } := by
  unfold Pool.Put
  rw [hd]
  simp [hkeep, hclosed, hch]

theorem put_discard_eval (p : Pool) (conn : Conn) (now : Nat) (busy1 : Conns)
    (hd : p.busyConn.deleteByKey conn.Key = some busy1)
    (hnkeep : ¬(p.idleConn.size < p.keepConn ∧ p.closed = false)) :
    p.Put conn now = some { p with
      busyConn := busy1,
      closedDBs := conn.DB :: p.closedDBs } := by
  unfold Pool.Put
  rw [hd]
  simp only []
  rw [if_neg hnkeep]

theorem get_open_guard (p : Pool) (ctxDone : Bool) (openRes : Except Nat Nat)
    (key : String) (now : Nat) (out : GetOut) (p1 : Pool)
    (h : p.Get ctxDone openRes key now = some (out, p1))
    (hlt : p.idleConn.size + p.busyConn.size
      < p1.idleConn.size + p1.busyConn.size) :
    p.idleConn.size = 0 ∧ p.busyConn.size < p.capacity := by
  unfold Pool.Get at h
  split at h
  · simp only [Option.some.injEq, Prod.mk.injEq] at h
    have e1 : p1.idleConn.size = p.idleConn.size := by rw [← h.2]
    have e2 : p1.busyConn.size = p.busyConn.size := by rw [← h.2]
    omega
  next hctx =>
    split at h
    · simp only [Option.some.injEq, Prod.mk.injEq] at h
      have e1 : p1.idleConn.size = p.idleConn.size := by rw [← h.2]
      have e2 : p1.busyConn.size = p.busyConn.size := by rw [← h.2]
      omega
    next hcl =>
      split at h
      next hidle =>
        split at h
        · exact absurd h (by simp)
        next c2 p2 hg =>
          split at h
          · exact absurd h (by simp)
          next hch =>
            simp only [Option.some.injEq, Prod.mk.injEq] at h
            obtain ⟨idle1, hcg, hp2⟩ := pool_get_spec p now c2 p2 hg
            obtain ⟨key0, rest, c0, hk, hl, hc, hidle1⟩ :=
              conns_get_spec _ _ _ _ hcg
            subst hp2
            subst hidle1
            have e1 : p1.idleConn.size = p.idleConn.size - 1 := by rw [← h.2]
            have e2 : p1.busyConn.size = p.busyConn.size + 1 := by
              rw [← h.2]
              show (p.busyConn.put c2 now).size = p.busyConn.size + 1
              rfl
            omega
      next hidle =>
        split at h
        next hbusy =>
          split at h
          · exact absurd h (by simp)
          · next e heq =>
              simp only [Option.some.injEq, Prod.mk.injEq] at h
              have e1 : p1.idleConn.size = p.idleConn.size := by rw [← h.2]
              have e2 : p1.busyConn.size = p.busyConn.size := by rw [← h.2]
              omega
          next p2 heq =>
            exact ⟨by omega, hbusy⟩
        next hbusy =>
          simp only [Option.some.injEq, Prod.mk.injEq] at h
          have e1 : p1.idleConn.size = p.idleConn.size := by rw [← h.2]
          have e2 : p1.busyConn.size = p.busyConn.size := by rw [← h.2]
          omega

theorem put_total (p : Pool) (conn : Conn) (now : Nat) (p1 : Pool)
    (h : p.Put conn now = some p1) :
    p1.idleConn.size + p1.busyConn.size
      ≤ p.idleConn.size + p.busyConn.size := by
  unfold Pool.Put at h
  split at h
  · exact absurd h (by simp)
  next busy1 hd =>
    obtain ⟨hbsz, hb1sz, -, -⟩ := deleteByKey_spec _ _ _ hd
    split at h
    next hkeep =>
      split at h
      next hch =>
        simp only [Option.some.injEq] at h
        have e1 : p1.idleConn.size = p.idleConn.size + 1 := by
          rw [← h]
          show (p.idleConn.put conn now).size = p.idleConn.size + 1
          rfl
        have e2 : p1.busyConn.size = busy1.size := by rw [← h]
        omega
      next hch => exact absurd h (by simp)
    next hkeep =>
      simp only [Option.some.injEq] at h
      have e1 : p1.idleConn.size = p.idleConn.size := by rw [← h]
      have e2 : p1.busyConn.size = busy1.size := by rw [← h]
      omega

/-!
Concrete values used by the claim witnesses and counterexamples.
-/

/-- A concrete connection key. -/
def kA : String := "a"

/-- A concrete connection key. -/
def kB : String := "b"

/-- A concrete connection key. -/
def kC : String := "c"

/-- A concrete connection. -/
def cA : Conn := ⟨1, kA, 0, 0, 0⟩

/-- A concrete connection. -/
def cB : Conn := ⟨2, kB, 0, 0, 0⟩

/-- Concrete options: MySQL, present args, KeepConn 0, Capacity 1. -/
def optsW : Options := ⟨SQLType.MySQL, some 1, 0, 1, 0, none⟩

/-- The pool built by a successful `NewPool` from `optsW` (zero warm-up, one
throwaway check connection on handle 5). -/
def poolW : Pool :=
  { initPool { optsW with connector := some Connector.my } with
      closedDBs := [5] }

theorem reach_poolW : Reach poolW :=
  Reach.init optsW [] (.ok 5) 0 poolW false rfl rfl

/-- C1: for every pool constructed with Capacity = C, at every reachable
point of its lifetime the idle size plus the busy size never exceeds C; a
Get grows the total (that is, opens a new connection) only when the idle
set is empty and the busy size is strictly below C; and Put never increases
the total. -/
theorem c1_capacity_invariant :
    (∀ p : Pool, Reach p →
      p.idleConn.size + p.busyConn.size ≤ p.capacity) ∧
    (∀ (p : Pool) (ctxDone : Bool) (openRes : Except Nat Nat) (key : String)
        (now : Nat) (out : GetOut) (p1 : Pool),
      p.Get ctxDone openRes key now = some (out, p1) →
      p.idleConn.size + p.busyConn.size
        < p1.idleConn.size + p1.busyConn.size →
      p.idleConn.size = 0 ∧ p.busyConn.size < p.capacity) ∧
    (∀ (p : Pool) (conn : Conn) (now : Nat) (p1 : Pool),
      p.Put conn now = some p1 →
      p1.idleConn.size + p1.busyConn.size
        ≤ p.idleConn.size + p.busyConn.size) :=
  ⟨fun p h => (reach_inv p h).total_le,
   fun p ctxDone openRes key now out p1 h hlt =>
     get_open_guard p ctxDone openRes key now out p1 h hlt,
   fun p conn now p1 h => put_total p conn now p1 h⟩

/-- Witness for C1 at the concrete reachable pool `poolW`. -/
theorem c1_witness : poolW.idleConn.size + poolW.busyConn.size
    ≤ poolW.capacity :=
  c1_capacity_invariant.1 poolW reach_poolW

/-- A concrete ordered connection set of size 2 whose invariant `size =
number of keys = number of map entries` holds. -/
def csC2 : Conns := ⟨[kA, kB], [(kA, cA), (kB, cB)], 2⟩

/-- C2: the claim states that every Ordered Connection Set operation
preserves `size = number of keys = number of map entries`, and that
RemoveByKey on a set of size n containing the key leaves exactly n - 1 keys
with no stray empty entries.  The code violates this: `deleteByKey` on the
size-2 set `csC2` leaves a size field of 1 but a key slice of length 2
containing a stray empty entry, because the rebuilt slice is pre-sized with
`make([]string, size-1)` and then appended to. -/
theorem c2_deleteByKey_bug :
    csC2.deleteByKey kA = some ⟨[emptyKey, kB], [(kB, cB)], 1⟩ ∧
    (⟨[emptyKey, kB], [(kB, cB)], 1⟩ : Conns).size = 1 ∧
    (⟨[emptyKey, kB], [(kB, cB)], 1⟩ : Conns).keys.length = 2 ∧
    emptyKey ∈ (⟨[emptyKey, kB], [(kB, cB)], 1⟩ : Conns).keys ∧
    (⟨[emptyKey, kB], [(kB, cB)], 1⟩ : Conns).conns.length = 1 := by
  refine ⟨by decide, rfl, rfl, by decide, rfl⟩

theorem validate_unsupported (o : Options)
    (hr : resolveConnector o.sqlType = none) :
    o.validate = .error .ErrSQLType := by
  unfold Options.validate
  rw [hr]

theorem validate_emptyArgs (o : Options) (c : Connector)
    (hr : resolveConnector o.sqlType = some c) (h1 : o.Args = none) :
    o.validate = .error .ErrEmptyArgs := by
  unfold Options.validate
  rw [hr]
  simp [h1]

theorem validate_capacity (o : Options) (c : Connector)
    (hr : resolveConnector o.sqlType = some c) (h1 : ¬o.Args = none)
    (h2 : o.Capacity = 0) : o.validate = .error .ErrCapacity := by
  unfold Options.validate
  rw [hr]
  simp [h1, h2]

theorem validate_keep (o : Options) (c : Connector)
    (hr : resolveConnector o.sqlType = some c) (h1 : ¬o.Args = none)
    (h2 : ¬o.Capacity = 0) (h3 : o.Capacity < o.KeepConn) :
    o.validate = .error .ErrKeepLTCapacity := by
  unfold Options.validate
  rw [hr]
  simp [h1, h2, h3]

theorem validate_success (o : Options) (c : Connector)
    (hr : resolveConnector o.sqlType = some c) (h1 : ¬o.Args = none)
    (h2 : ¬o.Capacity = 0) (h3 : o.KeepConn ≤ o.Capacity) :
    o.validate = .ok { o with connector := some c } := by
  have h4 : ¬o.Capacity < o.KeepConn := by omega
  unfold Options.validate
  rw [hr]
  simp [h1, h2, h4]

/-- C3: configuration validation runs in a fixed order, stopping at the
first failure: an unrecognized Type fails with `ErrSQLType`
(UnsupportedType); otherwise a nil `Args` fails with `ErrEmptyArgs`
(MissingArguments); otherwise a zero `Capacity` fails with `ErrCapacity`
(InvalidCapacity); otherwise `KeepConn > Capacity` fails with
`ErrKeepLTCapacity` (KeepExceedsCapacity); otherwise validation succeeds. -/
theorem c3_validate_order (o : Options) :
    (o.validate = .error .ErrSQLType ↔
      resolveConnector o.sqlType = none) ∧
    (o.validate = .error .ErrEmptyArgs ↔
      (resolveConnector o.sqlType).isSome ∧ o.Args = none) ∧
    (o.validate = .error .ErrCapacity ↔
      (resolveConnector o.sqlType).isSome ∧ ¬o.Args = none ∧
        o.Capacity = 0) ∧
    (o.validate = .error .ErrKeepLTCapacity ↔
      (resolveConnector o.sqlType).isSome ∧ ¬o.Args = none ∧
        ¬o.Capacity = 0 ∧ o.Capacity < o.KeepConn) ∧
    ((∃ o1, o.validate = .ok o1) ↔
      (resolveConnector o.sqlType).isSome ∧ ¬o.Args = none ∧
        ¬o.Capacity = 0 ∧ o.KeepConn ≤ o.Capacity) := by
  cases hr : resolveConnector o.sqlType with
  | none =>
    have hv := validate_unsupported o hr
    refine ⟨?_, ?_, ?_, ?_, ?_⟩ <;> simp [hv, hr]
  | some c =>
    by_cases h1 : o.Args = none
    · have hv := validate_emptyArgs o c hr h1
      refine ⟨?_, ?_, ?_, ?_, ?_⟩ <;> simp [hv, hr, h1]
    · by_cases h2 : o.Capacity = 0
      · have hv := validate_capacity o c hr h1 h2
        refine ⟨?_, ?_, ?_, ?_, ?_⟩ <;> simp [hv, hr, h1, h2]
      · by_cases h3 : o.Capacity < o.KeepConn
        · have h4 : ¬o.KeepConn ≤ o.Capacity := by omega
          have hv := validate_keep o c hr h1 h2 h3
          refine ⟨?_, ?_, ?_, ?_, ?_⟩ <;> simp [hv, hr, h1, h2, h3, h4]
        · have h4 : o.KeepConn ≤ o.Capacity := by omega
          have hv := validate_success o c hr h1 h2 h4
          refine ⟨?_, ?_, ?_, ?_, ?_⟩ <;> simp [hv, hr, h1, h2, h3, h4]

/-- Concrete options: PostgreSQL, present args, KeepConn 1, Capacity 1. -/
def optsC4 : Options := ⟨SQLType.PostgreSQL, some 2, 1, 1, 0, none⟩

/-- The pool built by `NewPool` from `optsC4`: one warmed-up idle
connection with key `kA` on handle 7, opened at time 3. -/
def poolC4 : Pool :=
  { initPool { optsC4 with connector := some Connector.postgre } with
      ch := 1,
      idleConn := ⟨[kA], [(kA, ⟨7, kA, 3, 3, 0⟩)], 1⟩ }

theorem reach_poolC4 : Reach poolC4 :=
  Reach.init optsC4 [(.ok 7, kA)] (.ok 0) 3 poolC4 true rfl rfl

/-- C4 (amended): after Close on any pool of a lifetime, the closed flag is
set and stays set under a repeated Close; every handle held in the idle
map has been closed; the idle map is emptied; the idle size field and key
slice are left unchanged (not emptied, contrary to the claim as stated);
and every subsequent Get fails with `ErrGetFromClosedPool` while
incrementing the dropped-get counter. -/
theorem c4_close_effect (p : Pool) (hre : Reach p) :
    (p.Close).closed = true ∧
    ((p.Close).Close).closed = true ∧
    (∀ e ∈ p.idleConn.conns, e.2.DB ∈ (p.Close).closedDBs) ∧
    (p.Close).idleConn.conns = [] ∧
    (p.Close).idleConn.size = p.idleConn.size ∧
    (p.Close).idleConn.keys = p.idleConn.keys ∧
    (∀ (ctxDone : Bool) (openRes : Except Nat Nat) (key : String)
        (now : Nat),
      (p.Close).Get ctxDone openRes key now =
        some (.err .ErrGetFromClosedPool,
          { p.Close with
              droppedGetCount := (p.Close).droppedGetCount + 1 })) := by
  have hInv := reach_inv p hre
  refine ⟨rfl, rfl, ?_, close_conns_nil p hInv, rfl, rfl, ?_⟩
  · intro e he
    show e.2.DB ∈ (p.idleConn.conns.map (fun x => x.2.DB)) ++ p.closedDBs
    exact List.mem_append_left _ (List.mem_map.mpr ⟨e, he, rfl⟩)
  · intro ctxDone openRes key now
    exact get_on_closed p.Close rfl ctxDone openRes key now

/-- Counterexample for C4 as stated: `poolC4` is reachable, yet after Close
its idle size field is still 1 and its key slice still holds `kA` — the
idle set is not emptied; only the map is. -/
theorem c4_counterexample :
    Reach poolC4 ∧ (poolC4.Close).idleConn.size = 1 ∧
    (poolC4.Close).idleConn.keys = [kA] ∧
    (poolC4.Close).idleConn.conns = [] :=
  ⟨reach_poolC4, by decide, by decide, by decide⟩

/-- Witness for C4 (amended) at the concrete reachable pool `poolC4`. -/
theorem c4_witness :
    (poolC4.Close).closed = true ∧ (poolC4.Close).idleConn.conns = [] :=
  ⟨(c4_close_effect poolC4 reach_poolC4).1,
   (c4_close_effect poolC4 reach_poolC4).2.2.2.1⟩

/-- C5: the claim states that whenever a cancellation signal fires after
construction, a background watcher subsequently closes the pool.  The
code's watcher goroutine is a `select` with a `default` case: it polls the
signal exactly once, at spawn time, and exits, so if the signal has not
fired by then the pool is never closed by it (first conjunct); moreover on
the `KeepConn = 0` construction path no watcher is spawned at all (second
conjunct: the spawn flag returned by the model of `NewPool` is `false`). -/
theorem c5_watcher_one_shot :
    (∀ p : Pool, watcher false p = p) ∧
    NewPool optsW [] (.ok 5) 0 = some (.ok (poolW, false)) :=
  ⟨fun _ => rfl, rfl⟩

/-- C6: for every Put of a connection with the busy set non-empty and a
semaphore slot available, the busy set loses the connection's key via
`deleteByKey`; then, if the idle size is strictly below `keepConn` and the
pool is not closed, the connection is put into the idle set and one
semaphore unit is returned (`ch + 1`); otherwise the connection's handle is
closed (recorded in `closedDBs`) and the connection is discarded.  In both
branches Put completes and returns nothing — no error is reported to the
caller (the model's return type carries no error, as the Go function has no
return value). -/
theorem c6_put_behaviour (p : Pool) (conn : Conn) (now : Nat)
    (hbusy : 1 ≤ p.busyConn.size) (hch : p.ch < p.capacity) :
    ∃ busy1, p.busyConn.deleteByKey conn.Key = some busy1 ∧
      ((p.idleConn.size < p.keepConn ∧ p.closed = false) →
        p.Put conn now = some { p with
          busyConn := busy1,
          idleConn := p.idleConn.put conn now,
          ch := p.ch + 1 }) ∧
      (¬(p.idleConn.size < p.keepConn ∧ p.closed = false) →
        p.Put conn now = some { p with
          busyConn := busy1,
          closedDBs := conn.DB :: p.closedDBs }) := by
  have hz : ¬p.busyConn.size = 0 := by omega
  refine ⟨_, deleteByKey_eval p.busyConn conn.Key hz, ?_, ?_⟩
  · intro hkeep
    exact put_keep_eval p conn now _ (deleteByKey_eval p.busyConn conn.Key hz)
      hkeep.1 hkeep.2 hch
  · intro hnkeep
    exact put_discard_eval p conn now _
      (deleteByKey_eval p.busyConn conn.Key hz) hnkeep

/-- A concrete pool with KeepConn 0, Capacity 1 and one busy connection. -/
def poolC6 : Pool :=
  { initPool { optsW with connector := some Connector.my } with
      busyConn := ⟨[kA], [(kA, cA)], 1⟩ }

/-- Witness for C6 at the concrete pool `poolC6`. -/
theorem c6_witness :
    ∃ busy1, poolC6.busyConn.deleteByKey cA.Key = some busy1 ∧
      ((poolC6.idleConn.size < poolC6.keepConn ∧ poolC6.closed = false) →
        poolC6.Put cA 9 = some { poolC6 with
          busyConn := busy1,
          idleConn := poolC6.idleConn.put cA 9,
          ch := poolC6.ch + 1 }) ∧
      (¬(poolC6.idleConn.size < poolC6.keepConn ∧ poolC6.closed = false) →
        poolC6.Put cA 9 = some { poolC6 with
          busyConn := busy1,
          closedDBs := cA.DB :: poolC6.closedDBs }) :=
  c6_put_behaviour poolC6 cA 9 (by decide) (by decide)

/-- C7: for every pool whose cancellation signal has already fired when Get
is called, Get fails with `ErrGetFromClosedPool` and increments the
dropped-get counter by exactly one; the idle and busy sets (and every other
field) are unchanged. -/
theorem c7_get_cancelled (p : Pool) (openRes : Except Nat Nat) (key : String)
    (now : Nat) :
    p.Get true openRes key now = some (.err .ErrGetFromClosedPool,
      { p with droppedGetCount := p.droppedGetCount + 1 }) := rfl

/-- C8 (amended): for every open pool whose idle set is non-empty and whose
idle size stays below KeepConn during the operation, a Get immediately
followed by a Put of the returned connection restores the idle and busy
size fields to their pre-Get values, and the connection's usage counter has
increased by exactly one (incremented exactly once, in the take). -/
theorem c8_roundtrip (p : Pool) (openRes : Except Nat Nat) (key : String)
    (now now1 : Nat) (key0 : String) (rest : List String) (c : Conn)
    (hclosed : p.closed = false)
    (hk : p.idleConn.keys = key0 :: rest)
    (hl : lookupKey p.idleConn.conns key0 = some c)
    (hsz : p.idleConn.size = rest.length + 1)
    (hkeep : p.idleConn.size < p.keepConn)
    (hch1 : 1 ≤ p.ch) (hch2 : p.ch ≤ p.capacity) :
    ∃ c1 p1 p2,
      p.Get false openRes key now = some (.ok c1, p1) ∧
      p1.Put c1 now1 = some p2 ∧
      c1.UsageCounter = c.UsageCounter + 1 ∧
      p2.idleConn.size = p.idleConn.size ∧
      p2.busyConn.size = p.busyConn.size := by
  have hcg := conns_get_eval p.idleConn now key0 rest c hk hl
  have hpg := pool_get_eval p now _ _ hcg
  have hget := get_idle_eval p openRes key now _ _ hclosed (by omega)
    (by show ¬p.ch = 0; omega) hpg
  have hd := deleteByKey_eval
    (p.busyConn.put { c with UsageCounter := c.UsageCounter + 1,
                             Updated := now } now)
    c.Key (by show ¬p.busyConn.size + 1 = 0; omega)
  have hput := put_keep_eval
    { p with
        idleConn := ⟨rest, eraseKey p.idleConn.conns key0,
                     p.idleConn.size - 1⟩,
        busyConn := p.busyConn.put
          { c with UsageCounter := c.UsageCounter + 1, Updated := now } now,
        ch := p.ch - 1 }
    { c with UsageCounter := c.UsageCounter + 1, Updated := now } now1 _ hd
    (by show p.idleConn.size - 1 < p.keepConn; omega)
    (by show p.closed = false; exact hclosed)
    (by show p.ch - 1 < p.capacity; omega)
  refine ⟨_, _, _, hget, hput, rfl, ?_, ?_⟩
  · show p.idleConn.size - 1 + 1 = p.idleConn.size
    omega
  · show p.busyConn.size + 1 - 1 = p.busyConn.size
    omega

/-- Concrete options: MySQL, present args, KeepConn 2, Capacity 3. -/
def optsC8 : Options := ⟨SQLType.MySQL, some 1, 2, 3, 0, none⟩

/-- The pool built by `NewPool` from `optsC8`: two warmed-up idle
connections on handles 1 and 2. -/
def poolC8a : Pool :=
  { initPool { optsC8 with connector := some Connector.my } with
      ch := 2,
      idleConn := ⟨[kA, kB],
        [(kA, ⟨1, kA, 0, 0, 0⟩), (kB, ⟨2, kB, 0, 0, 0⟩)], 2⟩ }

/-- The completed outcome of a Get with the context not cancelled,
defaulting to no change when the operation would block or fault. -/
def getOutcome (p : Pool) (openRes : Except Nat Nat) (key : String)
    (now : Nat) : GetOut × Pool :=
  (p.Get false openRes key now).getD (.wouldWait, p)

/-- `poolC8a` after one Get: the head idle connection is now busy. -/
def poolC8b : Pool := (getOutcome poolC8a (.ok 9) kC 1).2

/-- `poolC8b` after another Get: the idle set is empty, two busy. -/
def poolC8c : Pool := (getOutcome poolC8b (.ok 9) kC 2).2

/-- The connection opened on demand by the third Get. -/
def connC8 : Conn := ⟨3, kC, 3, 3, 1⟩

/-- `poolC8c` after a third, on-demand Get. -/
def poolC8d : Pool := (getOutcome poolC8c (.ok 3) kC 3).2

/-- `poolC8d` after putting the on-demand connection back. -/
def poolC8e : Pool := (poolC8d.Put connC8 4).getD poolC8d

theorem reach_poolC8c : Reach poolC8c :=
  Reach.step _ _ (Reach.step _ _
    (Reach.init optsC8 [(.ok 1, kA), (.ok 2, kB)] (.ok 0) 0 poolC8a true
      rfl rfl)
    (Step.get poolC8a false (.ok 9) kC 1 (getOutcome poolC8a (.ok 9) kC 1).1
      poolC8b rfl))
    (Step.get poolC8b false (.ok 9) kC 2 (getOutcome poolC8b (.ok 9) kC 2).1
      poolC8c rfl)

/-- Counterexample for C8 as stated: `poolC8c` is a reachable open pool with
an empty idle set; its idle size stays below KeepConn (2) throughout a Get
(which opens a new connection on demand) followed by a Put of the returned
connection, yet the round trip leaves the idle size at 1, not at its
pre-Get value 0 — the Put retains the newly opened connection. -/
theorem c8_counterexample :
    Reach poolC8c ∧
    poolC8c.closed = false ∧
    poolC8c.idleConn.size < poolC8c.keepConn ∧
    poolC8d.idleConn.size < poolC8c.keepConn ∧
    poolC8c.Get false (.ok 3) kC 3 = some (.ok connC8, poolC8d) ∧
    poolC8d.Put connC8 4 = some poolC8e ∧
    poolC8e.busyConn.size = poolC8c.busyConn.size ∧
    ¬poolC8e.idleConn.size = poolC8c.idleConn.size := by
  refine ⟨reach_poolC8c, rfl, by decide, by decide, rfl, rfl, by decide,
    by decide⟩

/-- A concrete pool with KeepConn 2, Capacity 3 and one idle connection. -/
def poolC8w : Pool :=
  { initPool { optsC8 with connector := some Connector.my } with
      ch := 1, idleConn := ⟨[kA], [(kA, cA)], 1⟩ }

/-- Witness for C8 (amended) at the concrete pool `poolC8w`. -/
theorem c8_witness :
    ∃ c1 p1 p2,
      poolC8w.Get false (.ok 9) kC 5 = some (.ok c1, p1) ∧
      p1.Put c1 6 = some p2 ∧
      c1.UsageCounter = cA.UsageCounter + 1 ∧
      p2.idleConn.size = poolC8w.idleConn.size ∧
      p2.busyConn.size = poolC8w.busyConn.size :=
  c8_roundtrip poolC8w (.ok 9) kC 5 6 kA [] cA (by decide) (by decide)
    (by decide) (by decide) (by decide) (by decide) (by decide)

/-- C9 (amended): Status reads the pool under the lock and never mutates it,
and two consecutive Status calls with no intervening operation return
identical snapshots.  (The claim's further assertion — that the snapshot's
key-to-Connection mappings are copies unaffected by subsequent operations —
fails: see the counterexample over the reference-semantics mirror.) -/
theorem c9_status_pure :
    (∀ p : Pool, (p.Status).2 = p) ∧
    (∀ p : Pool, ((p.Status).2.Status).1 = (p.Status).1) :=
  ⟨fun _ => rfl, fun _ => rfl⟩

/-- The busy connection of the C9 scenario. -/
def connC9 : Conn := ⟨7, kA, 0, 0, 1⟩

/-- Heap for the C9 scenario: the idle map (address 0) is empty, the busy
map (address 1) holds `connC9`. -/
def heapC9 : MapHeap := ⟨[(0, []), (1, [(kA, connC9)])]⟩

/-- Pool for the C9 scenario: KeepConn 1, Capacity 1, one busy connection,
not closed. -/
def poolC9 : PoolRef := ⟨1, 1, ⟨[], 0, 0⟩, ⟨[kA], 1, 1⟩, false, 0, []⟩

/-- The heap after releasing `connC9` at time 3. -/
def heapC9x : MapHeap := ⟨[(0, [(kA, ⟨7, kA, 0, 3, 1⟩)]), (1, [])]⟩

/-- The pool after releasing `connC9` at time 3. -/
def poolC9x : PoolRef := ⟨1, 1, ⟨[kA], 0, 1⟩, ⟨[], 1, 0⟩, false, 1, []⟩

/-- Counterexample for C9 as stated: under Go's reference semantics for
maps, the snapshot taken before a Put shares its idle map reference with
the pool, so the Put's insertion becomes visible through the snapshot: the
table the snapshot's idle `connsRef` points to is empty before the Put and
non-empty after it.  The snapshot is therefore not a copy unaffected by
subsequent pool operations. -/
theorem c9_counterexample :
    putRef heapC9 poolC9 connC9 3 = some (heapC9x, poolC9x) ∧
    readTable heapC9.tables (statusRef poolC9).1.connsRef = [] ∧
    ¬readTable heapC9x.tables (statusRef poolC9).1.connsRef = [] := by
  refine ⟨by decide, rfl, by decide⟩

/-- C10: if the connector's Open fails during Get's on-demand opening path
(idle set empty, busy size below capacity, pool open), Get returns the
backend error unchanged and the pool state — idle set, busy set, semaphore
occupancy, and all counters including the dropped-get counter — is exactly
the prior state. -/
theorem c10_open_error (p : Pool) (e : Nat) (key : String) (now : Nat)
    (hclosed : p.closed = false) (hidle : p.idleConn.size = 0)
    (hbusy : p.busyConn.size < p.capacity) :
    p.Get false (.error e) key now = some (.err (.Backend e), p) := by
  unfold Pool.Get
  rw [initConn_error]
  simp [hclosed, hidle, hbusy]

/-- Witness for C10 at the concrete pool `poolW`. -/
theorem c10_witness :
    poolW.Get false (.error 42) kA 1 = some (.err (.Backend 42), poolW) :=
  c10_open_error poolW 42 kA 1 rfl rfl (by decide)

end GormPool
